import Mathlib

/-!
Shallow embedding of the matching and explanation engine of
`app/main.py` (AI resume parser): skill registry loading, word-boundary
regex skill extraction, phrase-matcher span extraction, context-term
extraction, Jaccard scoring and the match orchestrator, together with
theorems settling the specification claims about them.

Modelling conventions:
* Python `str` is Lean `String`; character offsets are positions into
  `s.data` (Python indexes by characters, as does `List Char`).
* Python `float` is modelled by `ℚ` (exact arithmetic; the spec allows
  "within floating-point tolerance").
* Python `set` is modelled by `Finset String` where the code uses sets,
  and by deduplicated lists where the code sorts a set into a list.
* The regex word-character class `\w` and `str.lower`/`str.strip` are
  modelled for ASCII text, which covers the registry and all claims.
* External collaborators (spaCy tokenizer output, the pgvector
  nearest-neighbour search) enter as explicit inputs, never as stubs of
  in-repository logic.
-/

namespace AIResumeParser

/-- ASCII model of the regex word-character class `\w`: letters, digits
and underscore. -/
def isWordChar (c : Char) : Bool := c.isAlphanum || c = '_'

/-- Character-list model of Python `str.lower` (ASCII case folding). -/
def lowerChars (s : List Char) : List Char := s.map Char.toLower

/-- Model of Python `str.lower` on `String`. -/
def lowerString (s : String) : String := ⟨lowerChars s.data⟩

/-- Whitespace recognised by the model of Python `str.strip`. -/
def isSpaceChar (c : Char) : Bool := c = ' ' || c = '\t' || c = '\n' || c = '\r'

/-- Model of Python `str.strip`: drop leading and trailing whitespace. -/
def trimString (s : String) : String :=
  ⟨((s.data.dropWhile isSpaceChar).reverse.dropWhile isSpaceChar).reverse⟩

/-- Case-insensitive literal occurrence of `pat` at offset `i` of `text`:
the body of the compiled pattern `re.escape(term)` under `re.IGNORECASE`. -/
def matchAt (pat text : List Char) (i : Nat) : Bool :=
  decide (i + pat.length ≤ text.length) &&
    lowerChars ((text.drop i).take pat.length) == lowerChars pat

/-- Occurrence of `pat` at offset `i` with the word-boundary guards of the
pattern `(?<!\w)pat(?!\w)` from `main.py` lines 258 and 347. -/
def boundaryAt (pat text : List Char) (i : Nat) : Bool :=
  matchAt pat text i &&
    (decide (i = 0) || !isWordChar (text.getD (i - 1) ' ')) &&
    (decide (i + pat.length = text.length) || !isWordChar (text.getD (i + pat.length) ' '))

/-- Model of `pattern.search(text)`: some word-boundary occurrence exists. -/
def boundarySearch (pat text : List Char) : Bool :=
  (List.range (text.length + 1)).any (boundaryAt pat text)

/-- Skill registry state: `CANONICAL_SKILLS` and `SKILL_ALIASES` of
`main.py`. The alias dictionary is an association list with unique keys. -/
structure Registry where
  canonicals : List String
  aliases : List (String × String)
deriving Repr, DecidableEq

/-- Model of `SKILL_ALIASES.get(t, t)`: the canonical name an alias maps
to, or the term itself when it is not an alias key. -/
def aliasLookup (al : List (String × String)) (t : String) : String :=
  ((al.find? (fun p => p.1 == t)).map Prod.snd).getD t

/-- Model of the Python dict assignment `d[k] = v`: any earlier binding of
`k` is replaced. (The original insertion position of an overwritten key is
not preserved; no claim depends on dictionary iteration order.) -/
def dictInsert (k v : String) (m : List (String × String)) : List (String × String) :=
  m.filter (fun p => p.1 != k) ++ [(k, v)]

/-- One parsed entry of `skills_registry.json`: `item.get("name")` may be
absent and aliases may be absent or empty strings. -/
structure RawSkillItem where
  name : Option String
  aliases : List (Option String)

/-- Normalisation `(x or "").strip().lower()` applied to names and aliases
by `load_skills_registry`. -/
def normName (o : Option String) : String := lowerString (trimString (o.getD ""))

/-- One iteration of the parsing loop of `load_skills_registry`
(`main.py` 233-241): skip empty names, append the canonical name, fold
the item's aliases into the alias dictionary. -/
def loadStep (acc : List String × List (String × String)) (item : RawSkillItem) :
    List String × List (String × String) :=
  let name := normName item.name
  if name = "" then acc
  else
    (acc.1 ++ [name],
     item.aliases.foldl (fun al a =>
       let an := normName a
       if an = "" then al else dictInsert an name al) acc.2)

/-- Embedding of `load_skills_registry` (`main.py` 225-250). The input is
the parse result of the JSON source: `none` models any exception raised
while reading or parsing (the `except` path), `some items` the parsed
skill list. Empty names are discarded; if no canonical name survives, the
fallback vocabulary `["python", "sql"]` is installed. -/
def load_skills_registry : Option (List RawSkillItem) → Registry
  | none => ⟨["python", "sql"], []⟩
  | some items =>
    let folded := items.foldl loadStep ([], [])
    ⟨if folded.1 = [] then ["python", "sql"] else folded.1, folded.2⟩

/-- The non-empty normalised canonical names of a parsed source: the
names `load_skills_registry` would keep. -/
def survivingNames (items : List RawSkillItem) : List String :=
  items.filterMap (fun item =>
    let name := normName item.name
    if name = "" then none else some name)

/-- Iteration order of `_SKILL_PATTERNS` (`main.py` 255-262): canonical
names first, then alias keys. (A token that is both canonical and alias
key occurs twice here where the dict holds it once; both visits resolve to
the same canonical skill, so the extracted set is unchanged.) -/
def registryTokens (reg : Registry) : List String :=
  reg.canonicals ++ reg.aliases.map Prod.fst

/-- Model of Python `sorted(found)` for a set accumulated into a list:
deduplicate, then sort lexicographically. -/
def sortedUnique (l : List String) : List String :=
  List.insertionSort (· ≤ ·) l.dedup

/-- Embedding of `extract_skills_simple` (`main.py` 265-275): regex
word-boundary detection over every registry token, alias resolution, the
canonical-membership filter, and the sorted unique output. -/
def extract_skills_simple (reg : Registry) (text : String) : List String :=
  if text = "" then []
  else
    sortedUnique ((registryTokens reg).filterMap (fun tok =>
      if boundarySearch tok.data text.data then
        let canon := aliasLookup reg.aliases tok
        if canon ∈ reg.canonicals then some canon else none
      else none))

/-- Registry holding only the canonical skill "java", as in the
word-boundary test of the spec. -/
def javaRegistry : Registry := ⟨["java"], []⟩

/-- Registry mapping alias "js" to canonical "javascript". -/
def jsRegistry : Registry := ⟨["javascript"], [("js", "javascript")]⟩


/-- Characters of `text[s:e]` (Python slice semantics for `0 ≤ s ≤ e`). -/
def sliceStr (text : List Char) (s e : Nat) : List Char := (text.drop s).take (e - s)

/-- Fuel-indexed scan modelling `pattern.finditer(text)` for the literal
word-boundary patterns: successive leftmost matches; after a match at `i`
the scan resumes at `i + max 1 pat.length` (non-overlapping matches, with
the one-step advance Python applies after an empty match). -/
def findIterAux (pat text : List Char) : Nat → Nat → List Nat
  | 0, _ => []
  | fuel + 1, i =>
    if text.length < i then []
    else if boundaryAt pat text i then i :: findIterAux pat text fuel (i + max 1 pat.length)
    else findIterAux pat text fuel (i + 1)

/-- Start offsets of the matches of `pattern.finditer(text)`;
`text.length + 1` fuel steps always suffice. -/
def findIter (pat text : List Char) : List Nat := findIterAux pat text (text.length + 1) 0

/-- One span dict `{"text": m.group(0), "start": m.start(), "end": m.end()}`
returned by `find_spans_for_terms`; the field `stop` models the key
`"end"` (a reserved word in Lean). -/
structure TermSpan where
  text : String
  start : Nat
  stop : Nat
deriving Repr, DecidableEq

/-- Embedding of `find_spans_for_terms` (`main.py` 341-352): for each term,
all word-boundary regex matches in the text with their offsets and the
literally matched substring. (The `try`/`except` around `re.compile` never
fires for escaped literal patterns and is dropped.) -/
def find_spans_for_terms (text : String) (terms : List String) : List TermSpan :=
  if text = "" ∨ terms = [] then []
  else terms.flatMap (fun t =>
    (findIter t.data text.data).map (fun i =>
      { text := ⟨sliceStr text.data i (i + t.data.length)⟩
        start := i
        stop := i + t.data.length }))

/-- One span dict produced by `extract_skills_with_spans`: canonical skill,
literal matched text, and character offsets (`stop` models the key
`"end"`). -/
structure SkillSpan where
  skill : String
  text : String
  start : Nat
  stop : Nat
deriving Repr, DecidableEq

/-- Embedding of `extract_skills_with_spans` (`main.py` 355-379). The
spaCy `PhraseMatcher` is an external collaborator; its hits enter as the
character-offset ranges `(span.start_char, span.end_char)` of the matched
doc spans, whose text is the corresponding slice of the input. The lookup
`SKILL_CANON_BY_PHRASE.get(phrase, phrase)` coincides with
`aliasLookup` on the lowercase registries built by `load_skills_registry`
(alias keys first — aliases overwrite canonical keys in the dict — then
canonical names map to themselves). -/
def extract_skills_with_spans (reg : Registry) (hits : List (Nat × Nat)) (text : String) :
    List String × List SkillSpan :=
  if text = "" then ([], [])
  else
    let matcherSpans := hits.filterMap (fun h =>
      let raw : String := ⟨sliceStr text.data h.1 h.2⟩
      let phrase := lowerString raw
      let canon := aliasLookup reg.aliases phrase
      if canon ∈ reg.canonicals then
        some { skill := canon, text := raw, start := h.1, stop := h.2 }
      else none)
    let found := matcherSpans.map SkillSpan.skill ++ extract_skills_simple reg text
    let skills_sorted := sortedUnique found
    (skills_sorted, matcherSpans.filter (fun sp => decide (sp.skill ∈ skills_sorted)))

/-- One spaCy token as consumed by `extract_context_terms`: surface text,
lemma, coarse part-of-speech tag, stop-word and punctuation flags
(external tokenizer output). -/
structure Tok where
  text : String
  lemma_ : String
  pos_ : String
  is_stop : Bool
  is_punct : Bool
deriving Repr, DecidableEq

/-- A spaCy document as consumed by `extract_context_terms`: noun-chunk
surface texts and the token sequence (external tokenizer output). -/
structure DocModel where
  noun_chunks : List String
  toks : List Tok
deriving Repr, DecidableEq

/-- Model of Python `str.isnumeric` for ASCII text. -/
def isNumericStr (s : String) : Bool := !s.data.isEmpty && s.data.all Char.isDigit

/-- Model of Python `str.isalpha` for ASCII text. -/
def isAlphaStr (s : String) : Bool := !s.data.isEmpty && s.data.all Char.isAlpha

/-- Embedding of the inner `terms_from_doc` of `extract_context_terms`
(`main.py` 317-330): noun chunks of 3-60 characters that are not purely
numeric, plus lowercased lemmas of alphabetic NOUN/PROPN/ADJ tokens of
length at least 3 that are neither stop words nor punctuation. -/
def terms_from_doc (d : DocModel) : List String :=
  (d.noun_chunks.filterMap (fun nc =>
    let t := lowerString (trimString nc)
    if 3 ≤ t.length ∧ t.length ≤ 60 ∧ !isNumericStr t then some t else none)) ++
  (d.toks.filterMap (fun tok =>
    if tok.is_stop ∨ tok.is_punct ∨ !isAlphaStr tok.text then none
    else if (tok.pos_ = "NOUN" ∨ tok.pos_ = "PROPN" ∨ tok.pos_ = "ADJ") ∧ 3 ≤ tok.text.length
    then some (lowerString tok.lemma_)
    else none))

/-- Python sort order for the key `(-len(x), x)`: longer terms first,
lexicographic tie-break. Distinct strings have distinct keys, so the
sorted output is unique and stability is irrelevant here. -/
def ctxBefore (a b : String) : Prop := b.length < a.length ∨ (a.length = b.length ∧ a ≤ b)

instance : DecidableRel ctxBefore := fun a b => by
  unfold ctxBefore; infer_instance

/-- Embedding of `extract_context_terms` (`main.py` 310-338): overlap of
the two documents' term sets, minus the exclude terms and the canonical
skills (aliases are not subtracted by the code), sorted longest-first and
truncated to `max_terms`. -/
def extract_context_terms (reg : Registry) (doc_j doc_r : DocModel)
    (job_text resume_text : String) (exclude_terms : List String) (max_terms : Nat) :
    List String :=
  if job_text = "" ∨ resume_text = "" then []
  else
    let j_terms := (terms_from_doc doc_j).dedup
    let r_terms := terms_from_doc doc_r
    let overlap := j_terms.filter (fun t => decide (t ∈ r_terms))
    let filtered := overlap.filter (fun t =>
      decide (t ∉ exclude_terms ∧ t ∉ reg.canonicals))
    (List.insertionSort ctxBefore filtered).take max_terms

/-- Embedding of `jaccard` (`main.py` 439-444): 0 when both sets are
empty, otherwise intersection size over union size with a guard against a
zero union. -/
def jaccard (a b : Finset String) : ℚ :=
  if a = ∅ ∧ b = ∅ then 0
  else
    let inter := (a ∩ b).card
    let union := (a ∪ b).card
    if union = 0 then 0 else (inter : ℚ) / (union : ℚ)

/-- The job record consumed by the `match` endpoint: required skills,
stored embedding (`none` models a missing value, as well as the
length-zero check on a present one) and the cleaned description text. -/
structure Job where
  required_skills : List String
  embedding : Option (List ℚ)
  description_cleaned : String

/-- One candidate row of the external nearest-neighbour search
`search_resumes_by_embedding`, together with the external inputs of the
per-candidate explanation work: the stored cleaned resume text, the
PhraseMatcher hits on it, and the spaCy documents of the job description
and the resume text. -/
structure Candidate where
  resume_id : String
  candidate_name : Option String
  skills : List String
  cosine : ℚ
  cleaned_text : Option String
  matcher_hits : List (Nat × Nat)
  job_doc : DocModel
  resume_doc : DocModel

/-- The `MatchResult` record of `main.py` (response model of `match`). -/
structure MatchResult where
  resume_id : String
  candidate_name : Option String
  cosine : ℚ
  skills_overlap : ℚ
  composite_score : ℚ
  matched_skills : List String
  missing_skills : List String
  matched_spans : List SkillSpan
  context_terms : List String
  context_job_spans : List TermSpan
  context_resume_spans : List TermSpan
deriving DecidableEq

/-- Sorted list of a finite set of strings: Python `sorted(s)`. -/
def sortFinset (s : Finset String) : List String := s.sort (· ≤ ·)

/-- Explanation data of the loop body of `match` (`main.py` 1009-1022):
computed only when the stored cleaned text is a non-empty string, else
empty. Returns matched spans, context terms, job context spans and resume
context spans. -/
def explainParts (reg : Registry) (job_desc : String) (matched : List String)
    (c : Candidate) : List SkillSpan × List String × List TermSpan × List TermSpan :=
  match c.cleaned_text with
  | none => ([], [], [], [])
  | some ct =>
    if ct = "" then ([], [], [], [])
    else
      let ex := extract_skills_with_spans reg c.matcher_hits ct
      let cterms := extract_context_terms reg c.job_doc c.resume_doc job_desc ct matched 20
      (ex.2.filter (fun sp => decide (sp.skill ∈ matched)),
       cterms,
       find_spans_for_terms job_desc cterms,
       find_spans_for_terms ct cterms)

/-- Embedding of the per-candidate body of the `match` loop
(`main.py` 1002-1038): overlap with the empty-required guard, sorted
matched and missing skill lists, the composite score
`0.7 * cosine + 0.3 * overlap`, and the explanation spans. -/
def buildResult (reg : Registry) (req_skills : Finset String) (job_desc : String)
    (c : Candidate) : MatchResult :=
  let res_skills := c.skills.toFinset
  let overlap : ℚ := if req_skills = ∅ then 0 else jaccard req_skills res_skills
  let matched := sortFinset (req_skills ∩ res_skills)
  let missing := sortFinset (req_skills \ res_skills)
  let parts := explainParts reg job_desc matched c
  { resume_id := c.resume_id
    candidate_name := c.candidate_name
    cosine := c.cosine
    skills_overlap := overlap
    composite_score := 7/10 * c.cosine + 3/10 * overlap
    matched_skills := matched
    missing_skills := missing
    matched_spans := parts.1
    context_terms := parts.2.1
    context_job_spans := parts.2.2.1
    context_resume_spans := parts.2.2.2 }

/-- The `MatchResponse` record of `main.py`. -/
structure MatchResponse where
  job_id : String
  k : ℤ
  results : List MatchResult
  note : String

/-- Guard condition of `match` (`main.py` 991): the embedding is `None`
or has length zero. -/
def hasNoEmbedding : Option (List ℚ) → Bool
  | none => true
  | some e => e.isEmpty

/-- Final sort order of `match` (`main.py` 1041):
`results.sort(key=composite_score, reverse=True)`; `compositeDesc a b`
states that `a` may precede `b`. Python's sort is stable, which the
insertion sort used below also is. -/
def compositeDesc (a b : MatchResult) : Prop := b.composite_score ≤ a.composite_score

instance : DecidableRel compositeDesc := fun a b => by
  unfold compositeDesc; infer_instance

/-- Embedding of the `match` endpoint (`main.py` 982-1044) past the 404
lookup: the no-embedding guard, the per-candidate loop over the external
top-k list, the stable re-sort by composite score descending, and the
truncation `results[: max(1, k)]`. (`match` is a reserved word in Lean.) -/
def matchEndpoint (reg : Registry) (job_id : String) (job : Job)
    (topk : List Candidate) (k : ℤ) : MatchResponse :=
  if hasNoEmbedding job.embedding then
    ⟨job_id, k, [], "job has no embedding"⟩
  else
    let req_skills := job.required_skills.toFinset
    let results := topk.map (buildResult reg req_skills job.description_cleaned)
    let sorted := List.insertionSort compositeDesc results
    ⟨job_id, k, sorted.take (max 1 k).toNat, "pgvector cosine + skills jaccard"⟩

/-! ### Lemmas about the sorted unique output shape -/

theorem mem_sortedUnique {a : String} {l : List String} : a ∈ sortedUnique l ↔ a ∈ l := by
  unfold sortedUnique
  rw [(List.perm_insertionSort _ _).mem_iff, List.mem_dedup]

theorem sorted_sortedUnique (l : List String) : (sortedUnique l).Sorted (· ≤ ·) :=
  List.sorted_insertionSort _ _

theorem nodup_sortedUnique (l : List String) : (sortedUnique l).Nodup :=
  (List.perm_insertionSort _ _).nodup_iff.mpr (List.nodup_dedup l)

theorem pairwise_lt_sortedUnique (l : List String) : (sortedUnique l).Pairwise (· < ·) :=
  (sorted_sortedUnique l).lt_of_le (nodup_sortedUnique l)

/-- Every skill returned by `extract_skills_simple` passed the membership
filter `canon in CANONICAL_SKILLS`. -/
theorem extract_skills_simple_subset {reg : Registry} {text : String} :
    ∀ x ∈ extract_skills_simple reg text, x ∈ reg.canonicals := by
  intro x hx
  unfold extract_skills_simple at hx
  split at hx
  · simp at hx
  · rw [mem_sortedUnique] at hx
    obtain ⟨tok, -, htok⟩ := List.mem_filterMap.mp hx
    dsimp only at htok
    split at htok
    · split at htok
      · cases htok
        assumption
      · cases htok
    · cases htok

/-- The output of `extract_skills_simple` is a `sortedUnique` image of a
list of canonical names. -/
theorem extract_skills_simple_shape (reg : Registry) (text : String) :
    ∃ l, extract_skills_simple reg text = sortedUnique l ∧ ∀ x ∈ l, x ∈ reg.canonicals := by
  unfold extract_skills_simple
  split
  · exact ⟨[], rfl, by simp⟩
  · refine ⟨_, rfl, ?_⟩
    intro x hx
    obtain ⟨tok, -, htok⟩ := List.mem_filterMap.mp hx
    dsimp only at htok
    split at htok
    · split at htok
      · cases htok
        assumption
      · cases htok
    · cases htok

/-- The skill list of `extract_skills_with_spans` is a `sortedUnique`
image of a list of canonical names. -/
theorem extract_skills_with_spans_shape (reg : Registry) (hits : List (Nat × Nat))
    (text : String) :
    ∃ l, (extract_skills_with_spans reg hits text).1 = sortedUnique l ∧
      ∀ x ∈ l, x ∈ reg.canonicals := by
  unfold extract_skills_with_spans
  split
  · exact ⟨[], rfl, by simp⟩
  · refine ⟨_, rfl, ?_⟩
    intro x hx
    rcases List.mem_append.mp hx with hx | hx
    · obtain ⟨sp, hsp, hskill⟩ := List.mem_map.mp hx
      obtain ⟨h, -, hh⟩ := List.mem_filterMap.mp hsp
      dsimp only at hh
      split at hh
      · cases hh
        exact hskill ▸ ‹_›
      · cases hh
    · exact extract_skills_simple_subset x hx

/-! ### C5, C6, C10: skill extraction output -/

/-- C5: skill matching is word-boundary-delimited and case-insensitive:
with the skill "java" in the registry, "javascript developer" yields no
skill, "I use Java daily" yields "java", on both the regex path and the
full extraction path. -/
theorem C5_word_boundary :
    extract_skills_simple javaRegistry "javascript developer" = [] ∧
    extract_skills_simple javaRegistry "I use Java daily" = ["java"] ∧
    (extract_skills_with_spans javaRegistry [] "javascript developer").1 = [] ∧
    (extract_skills_with_spans javaRegistry [] "I use Java daily").1 = ["java"] :=
  ⟨by decide, by decide, by decide, by decide⟩

/-- C6: alias canonicalization: with alias "js" mapping to canonical
"javascript", any text containing "js" at a word boundary (in any letter
case — the search is case-insensitive) yields exactly ["javascript"];
the alias surface form "js" never appears in any output. -/
theorem C6_alias_canonicalization :
    (∀ text : String, boundarySearch "js".data text.data = true →
      extract_skills_simple jsRegistry text = ["javascript"]) ∧
    (∀ text : String, "js" ∉ extract_skills_simple jsRegistry text) ∧
    extract_skills_simple jsRegistry "Expert in JS" = ["javascript"] := by
  refine ⟨?_, ?_, by decide⟩
  · intro text h
    have hne : text ≠ "" := by
      rintro rfl
      exact absurd h (by decide)
    have ha1 : aliasLookup jsRegistry.aliases "javascript" = "javascript" := by decide
    have ha2 : aliasLookup jsRegistry.aliases "js" = "javascript" := by decide
    unfold extract_skills_simple registryTokens
    rw [if_neg hne]
    show sortedUnique (List.filterMap _ ("javascript" :: ["js"])) = _
    rw [List.filterMap_cons, List.filterMap_cons, List.filterMap_nil]
    rcases Bool.eq_false_or_eq_true (boundarySearch "javascript".data text.data) with
      hjava | hjava <;>
      simp [hjava, h, ha1, ha2] <;> decide
  · intro text hx
    exact absurd (extract_skills_simple_subset "js" hx) (by decide)

theorem C6_alias_canonicalization_witness :
    extract_skills_simple jsRegistry "We ship JS code" = ["javascript"] :=
  C6_alias_canonicalization.1 "We ship JS code" (by decide)

/-- C10: both extraction functions return a duplicate-free,
lexicographically sorted list whose elements all belong to the canonical
vocabulary of the loaded registry. -/
theorem C10_sorted_unique_canonical (reg : Registry) (text : String)
    (hits : List (Nat × Nat)) :
    (extract_skills_simple reg text).Pairwise (· < ·) ∧
    (extract_skills_simple reg text).Nodup ∧
    (∀ x ∈ extract_skills_simple reg text, x ∈ reg.canonicals) ∧
    (extract_skills_with_spans reg hits text).1.Pairwise (· < ·) ∧
    (extract_skills_with_spans reg hits text).1.Nodup ∧
    (∀ x ∈ (extract_skills_with_spans reg hits text).1, x ∈ reg.canonicals) := by
  obtain ⟨l, hl, hsub⟩ := extract_skills_simple_shape reg text
  obtain ⟨l', hl', hsub'⟩ := extract_skills_with_spans_shape reg hits text
  refine ⟨?_, ?_, ?_, ?_, ?_, ?_⟩
  · rw [hl]; exact pairwise_lt_sortedUnique l
  · rw [hl]; exact nodup_sortedUnique l
  · intro x hx
    exact hsub x (mem_sortedUnique.mp (hl ▸ hx))
  · rw [hl']; exact pairwise_lt_sortedUnique l'
  · rw [hl']; exact nodup_sortedUnique l'
  · intro x hx
    exact hsub' x (mem_sortedUnique.mp (hl' ▸ hx))

theorem C10_sorted_unique_canonical_witness :
    (extract_skills_simple javaRegistry "I use Java daily").Pairwise (· < ·) ∧
    "java" ∈ javaRegistry.canonicals :=
  ⟨(C10_sorted_unique_canonical javaRegistry "I use Java daily" []).1,
   (C10_sorted_unique_canonical javaRegistry "I use Java daily" []).2.2.1 "java" (by decide)⟩

/-! ### C7: registry loading fails soft -/

theorem foldl_loadStep_fst (items : List RawSkillItem) :
    ∀ acc, (items.foldl loadStep acc).1 = acc.1 ++ survivingNames items := by
  induction items with
  | nil => intro acc; simp [survivingNames]
  | cons item rest ih =>
    intro acc
    rw [List.foldl_cons, ih]
    by_cases h : normName item.name = ""
    · simp [survivingNames, List.filterMap_cons, loadStep, h]
    · simp [survivingNames, List.filterMap_cons, loadStep, h]

/-- C7: registry loading fails soft: on a parse failure (`none`) or when
no non-empty canonical name survives normalisation, the fallback
vocabulary ["python", "sql"] is installed; the canonical list is never
empty. -/
theorem C7_registry_fallback (src : Option (List RawSkillItem)) :
    (load_skills_registry src).canonicals ≠ [] ∧
    (src = none → (load_skills_registry src).canonicals = ["python", "sql"]) ∧
    (∀ items, src = some items → survivingNames items = [] →
      (load_skills_registry src).canonicals = ["python", "sql"]) := by
  match src with
  | none => exact ⟨by decide, fun _ => rfl, fun items h => by cases h⟩
  | some items =>
    have hfst : (items.foldl loadStep ([], [])).1 = survivingNames items := by
      rw [foldl_loadStep_fst]; rfl
    refine ⟨?_, ?_, ?_⟩
    · show (if (items.foldl loadStep ([], [])).1 = [] then _ else _) ≠ []
      rw [hfst]
      split
      · decide
      · assumption
    · intro h
      cases h
    · intro items' h hempty
      cases h
      show (if (items.foldl loadStep ([], [])).1 = [] then _ else _) = _
      rw [hfst, if_pos hempty]

theorem C7_registry_fallback_witness :
    (load_skills_registry none).canonicals = ["python", "sql"] ∧
    (load_skills_registry none).canonicals ≠ [] :=
  ⟨(C7_registry_fallback none).2.1 rfl, (C7_registry_fallback none).1⟩

/-! ### C1, C2, C3: scoring and the orchestrator guard -/

theorem jaccard_empty_left (b : Finset String) : jaccard ∅ b = 0 := by
  unfold jaccard
  by_cases hb : b = ∅
  · simp [hb]
  · rw [if_neg (by simp [hb])]
    simp only [Finset.empty_inter, Finset.empty_union, Finset.card_empty, Nat.cast_zero]
    split <;> simp

theorem jaccard_concrete : jaccard {"python", "sql"} {"python"} = 1/2 := by
  have h0 : ¬(({"python", "sql"} : Finset String) = ∅ ∧ ({"python"} : Finset String) = ∅) := by
    decide
  have h1 : (({"python", "sql"} : Finset String) ∩ {"python"}).card = 1 := by decide
  have h2 : (({"python", "sql"} : Finset String) ∪ {"python"}).card = 2 := by decide
  simp only [jaccard, h1, h2, if_neg h0]
  norm_num

/-- Composite formula of the per-candidate loop body, read off the record
fields of `buildResult`. -/
theorem buildResult_composite (reg : Registry) (req : Finset String) (jd : String)
    (c : Candidate) :
    (buildResult reg req jd c).composite_score =
      7/10 * (buildResult reg req jd c).cosine +
        3/10 * (buildResult reg req jd c).skills_overlap := rfl

/-- C2: the overlap used for scoring is the Jaccard index with its
asymmetric empty-set handling: 0 when both sets are empty, 0 whenever the
required set is empty, intersection over union otherwise. -/
theorem C2_jaccard_overlap :
    (∀ (reg : Registry) (req : Finset String) (jd : String) (c : Candidate),
      (buildResult reg req jd c).skills_overlap = jaccard req c.skills.toFinset) ∧
    (∀ a b : Finset String,
      jaccard a b =
        if a = ∅ ∧ b = ∅ then 0 else ((a ∩ b).card : ℚ) / ((a ∪ b).card : ℚ)) ∧
    (∀ b : Finset String, jaccard ∅ b = 0) ∧
    jaccard ∅ {"python"} = 0 ∧
    jaccard {"python", "sql"} {"python"} = 1/2 := by
  refine ⟨?_, ?_, jaccard_empty_left, jaccard_empty_left _, jaccard_concrete⟩
  · intro reg req jd c
    show (if req = ∅ then (0 : ℚ) else jaccard req c.skills.toFinset) = _
    by_cases h : req = ∅
    · simp [h, jaccard_empty_left]
    · simp [h]
  · intro a b
    unfold jaccard
    by_cases h : a = ∅ ∧ b = ∅
    · simp [h]
    · rw [if_neg h, if_neg h,
        if_neg (fun hc => h (Finset.union_eq_empty.mp (Finset.card_eq_zero.mp hc)))]

/-- The registry with no skills at all: used where the registry content is
irrelevant to the statement. -/
def emptyRegistry : Registry := ⟨[], []⟩

/-- Candidate with skill set {"a"} and cosine 0.8, no stored resume text:
the scorer example of the spec. -/
def demoCandidate : Candidate :=
  ⟨"r1", none, ["a"], 8/10, none, [], ⟨[], []⟩, ⟨[], []⟩⟩

/-- C1: every composite score produced by the match pipeline equals
`0.7 * cosine + 0.3 * skills_overlap`; at cosine 0.8, required {"a","b"},
candidate {"a"} the overlap is 1/2 and the composite is 71/100. -/
theorem C1_composite_formula :
    (∀ (reg : Registry) (req : Finset String) (jd : String) (c : Candidate),
      (buildResult reg req jd c).composite_score =
        7/10 * (buildResult reg req jd c).cosine +
          3/10 * (buildResult reg req jd c).skills_overlap) ∧
    (∀ (reg : Registry) (job_id : String) (job : Job) (topk : List Candidate) (k : ℤ),
      (matchEndpoint reg job_id job topk k).results.map (fun r => r.composite_score) =
        (matchEndpoint reg job_id job topk k).results.map
          (fun r => 7/10 * r.cosine + 3/10 * r.skills_overlap)) ∧
    jaccard {"a", "b"} {"a"} = 1/2 ∧
    (buildResult emptyRegistry {"a", "b"} "" demoCandidate).skills_overlap = 1/2 ∧
    (buildResult emptyRegistry {"a", "b"} "" demoCandidate).composite_score = 71/100 := by
  have hjab : jaccard {"a", "b"} {"a"} = 1/2 := by
    have h0 : ¬(({"a", "b"} : Finset String) = ∅ ∧ ({"a"} : Finset String) = ∅) := by decide
    have h1 : (({"a", "b"} : Finset String) ∩ {"a"}).card = 1 := by decide
    have h2 : (({"a", "b"} : Finset String) ∪ {"a"}).card = 2 := by decide
    simp only [jaccard, h1, h2, if_neg h0]
    norm_num
  have hover : (buildResult emptyRegistry {"a", "b"} "" demoCandidate).skills_overlap = 1/2 := by
    show (if ({"a", "b"} : Finset String) = ∅ then (0 : ℚ)
      else jaccard {"a", "b"} (["a"].toFinset)) = 1/2
    rw [if_neg (by decide)]
    have he : (["a"] : List String).toFinset = {"a"} := by decide
    rw [he, hjab]
  refine ⟨buildResult_composite, ?_, hjab, hover, ?_⟩
  · intro reg job_id job topk k
    rw [List.map_eq_map_iff]
    intro r hr
    unfold matchEndpoint at hr
    split at hr
    · simp at hr
    · have hr1 := List.mem_of_mem_take hr
      have hr2 := (List.perm_insertionSort compositeDesc _).mem_iff.mp hr1
      obtain ⟨c, -, rfl⟩ := List.mem_map.mp hr2
      exact buildResult_composite _ _ _ _
  · rw [buildResult_composite, hover]
    have hcos : (buildResult emptyRegistry {"a", "b"} "" demoCandidate).cosine = 8/10 := rfl
    rw [hcos]
    norm_num

/-- C3: a job whose stored embedding is missing or zero-length makes the
match operation return an empty result list with the explanatory note,
with no candidate scored. -/
theorem C3_no_embedding_guard (reg : Registry) (job_id : String) (job : Job)
    (topk : List Candidate) (k : ℤ)
    (h : job.embedding = none ∨ ∃ e, job.embedding = some e ∧ e.length = 0) :
    (matchEndpoint reg job_id job topk k).results = [] ∧
    (matchEndpoint reg job_id job topk k).note = "job has no embedding" := by
  have hg : hasNoEmbedding job.embedding = true := by
    rcases h with h | ⟨e, he, hlen⟩
    · rw [h]; rfl
    · rw [he]
      have : e = [] := List.length_eq_zero.mp hlen
      subst this
      rfl
  unfold matchEndpoint
  rw [if_pos hg]
  exact ⟨rfl, rfl⟩

/-- Job record with required skills but no stored embedding. -/
def noEmbJob : Job := ⟨["python"], none, "backend role"⟩

theorem C3_no_embedding_guard_witness :
    (matchEndpoint emptyRegistry "job-1" noEmbJob [] 20).results = [] ∧
    (matchEndpoint emptyRegistry "job-1" noEmbJob [] 20).note = "job has no embedding" :=
  C3_no_embedding_guard emptyRegistry "job-1" noEmbJob [] 20 (Or.inl rfl)

/-! ### C8: context-term exclusion

The code subtracts only `CANONICAL_SKILLS` and the passed exclude list
from the context-term overlap; alias surface forms are not subtracted, so
an alias of at least three characters can appear as a context term. -/

/-- Registry mapping the three-character alias "k8s" to "kubernetes". -/
def k8sRegistry : Registry := ⟨["kubernetes"], [("k8s", "kubernetes")]⟩

/-- Document whose only noun chunk is the alias surface form "k8s". -/
def k8sDoc : DocModel := ⟨["k8s"], []⟩

/-- C8 fails as stated: with alias "k8s" → "kubernetes" in the registry,
the context terms for two documents sharing the noun chunk "k8s" contain
the alias string "k8s", which belongs to the skill vocabulary. -/
theorem C8_context_alias_counterexample :
    "k8s" ∈ extract_context_terms k8sRegistry k8sDoc k8sDoc
      "k8s experience" "k8s admin" [] 20 ∧
    "k8s" ∈ k8sRegistry.aliases.map Prod.fst :=
  ⟨by decide, by decide⟩

/-- C8 amended: context terms never contain a canonical skill name or a
string of the exclude list passed in; alias surface forms are not
filtered and may appear. -/
theorem C8_context_exclusion_amended (reg : Registry) (doc_j doc_r : DocModel)
    (job_text resume_text : String) (exclude_terms : List String) (max_terms : Nat) :
    ∀ t ∈ extract_context_terms reg doc_j doc_r job_text resume_text exclude_terms max_terms,
      t ∉ exclude_terms ∧ t ∉ reg.canonicals := by
  intro t ht
  unfold extract_context_terms at ht
  split at ht
  · simp at ht
  · have h1 := List.mem_of_mem_take ht
    have h2 := (List.perm_insertionSort ctxBefore _).mem_iff.mp h1
    exact of_decide_eq_true (List.mem_filter.mp h2).2

theorem C8_context_exclusion_amended_witness :
    "k8s" ∉ ([] : List String) ∧ "k8s" ∉ k8sRegistry.canonicals :=
  C8_context_exclusion_amended k8sRegistry k8sDoc k8sDoc
    "k8s experience" "k8s admin" [] 20 "k8s" (by decide)

/-! ### C9: span invariants -/

theorem boundaryAt_add_length_le {pat text : List Char} {i : Nat}
    (h : boundaryAt pat text i = true) : i + pat.length ≤ text.length := by
  unfold boundaryAt matchAt at h
  simp only [Bool.and_eq_true, decide_eq_true_eq] at h
  exact h.1.1.1

theorem mem_findIterAux {pat text : List Char} :
    ∀ {fuel i j : Nat}, j ∈ findIterAux pat text fuel i → boundaryAt pat text j = true := by
  intro fuel
  induction fuel with
  | zero => intro i j h; simp [findIterAux] at h
  | succ n ih =>
    intro i j h
    unfold findIterAux at h
    by_cases hle : text.length < i
    · rw [if_pos hle] at h
      simp at h
    · rw [if_neg hle] at h
      by_cases hb : boundaryAt pat text i = true
      · rw [if_pos hb] at h
        rcases List.mem_cons.mp h with rfl | h'
        · exact hb
        · exact ih h'
      · rw [if_neg hb] at h
        exact ih h

/-- Spans of `extract_skills_with_spans` satisfy the containment and
consistency invariants, given that the external matcher's hits are
in-bounds token-aligned ranges of the analysed text (which spaCy
guarantees for spans of the document built from that text). -/
theorem extract_skills_with_spans_snd_spec (reg : Registry) (hits : List (Nat × Nat))
    (text : String) (hhits : ∀ p ∈ hits, p.1 < p.2 ∧ p.2 ≤ text.length) :
    ∀ sp ∈ (extract_skills_with_spans reg hits text).2,
      sp.start < sp.stop ∧ sp.stop ≤ text.length ∧
      sp.text.data = sliceStr text.data sp.start sp.stop ∧
      sp.skill ∈ (extract_skills_with_spans reg hits text).1 := by
  unfold extract_skills_with_spans
  split
  · intro sp hsp
    simp at hsp
  · intro sp hsp
    have hmem := List.mem_filter.mp hsp
    obtain ⟨p, hp, hsome⟩ := List.mem_filterMap.mp hmem.1
    have hskill := of_decide_eq_true hmem.2
    dsimp only at hsome
    split at hsome
    · cases hsome
      exact ⟨(hhits p hp).1, (hhits p hp).2, rfl, hskill⟩
    · cases hsome

/-- C9: every span produced by skill or context-term extraction satisfies
start < end ≤ len(text); its recorded text is the literal slice
text[start:end] (hence equal to it case-insensitively); skill spans are
retained only when their skill is in the returned skill set. The
hypotheses state that terms are non-empty strings (true of every term the
pipeline produces) and that the external matcher's hits are in-bounds
ranges of the text. -/
theorem C9_span_invariants (text : String) (terms : List String) (reg : Registry)
    (hits : List (Nat × Nat))
    (hterms : ∀ t ∈ terms, t ≠ "")
    (hhits : ∀ p ∈ hits, p.1 < p.2 ∧ p.2 ≤ text.length) :
    (∀ sp ∈ find_spans_for_terms text terms,
      sp.start < sp.stop ∧ sp.stop ≤ text.length ∧
      sp.text.data = sliceStr text.data sp.start sp.stop ∧
      lowerChars sp.text.data = lowerChars (sliceStr text.data sp.start sp.stop)) ∧
    (∀ sp ∈ (extract_skills_with_spans reg hits text).2,
      sp.start < sp.stop ∧ sp.stop ≤ text.length ∧
      sp.text.data = sliceStr text.data sp.start sp.stop ∧
      lowerChars sp.text.data = lowerChars (sliceStr text.data sp.start sp.stop) ∧
      sp.skill ∈ (extract_skills_with_spans reg hits text).1) := by
  constructor
  · intro sp hsp
    unfold find_spans_for_terms at hsp
    split at hsp
    · simp at hsp
    · obtain ⟨t, ht, hsp2⟩ := List.mem_flatMap.mp hsp
      obtain ⟨i, hi, rfl⟩ := List.mem_map.mp hsp2
      have hb := mem_findIterAux hi
      have hlen : i + t.data.length ≤ text.data.length := boundaryAt_add_length_le hb
      have hpos : 0 < t.data.length := by
        rcases t with ⟨d⟩
        cases d with
        | nil => exact absurd rfl (hterms ⟨[]⟩ ht)
        | cons c cs => simp
      exact ⟨Nat.lt_add_of_pos_right hpos, hlen, rfl, rfl⟩
  · intro sp hsp
    have h := extract_skills_with_spans_snd_spec reg hits text hhits sp hsp
    exact ⟨h.1, h.2.1, h.2.2.1, by rw [h.2.2.1], h.2.2.2⟩

theorem C9_span_invariants_witness :
    (4 < 8 ∧ 8 ≤ "Use Java now".length ∧
      "Java".data = sliceStr "Use Java now".data 4 8 ∧
      lowerChars "Java".data = lowerChars (sliceStr "Use Java now".data 4 8)) ∧
    (4 < 8 ∧ 8 ≤ "Use Java now".length ∧
      "Java".data = sliceStr "Use Java now".data 4 8 ∧
      lowerChars "Java".data = lowerChars (sliceStr "Use Java now".data 4 8) ∧
      "java" ∈ (extract_skills_with_spans javaRegistry [(4, 8)] "Use Java now").1) :=
  ⟨(C9_span_invariants "Use Java now" ["java"] javaRegistry [(4, 8)]
      (by decide) (by decide)).1 ⟨"Java", 4, 8⟩ (by decide),
   (C9_span_invariants "Use Java now" ["java"] javaRegistry [(4, 8)]
      (by decide) (by decide)).2 ⟨"java", "Java", 4, 8⟩ (by decide)⟩

/-! ### C4: final ordering and truncation

Python's `list.sort` is stable; `List.insertionSort compositeDesc` is the
same stable descending sort. Stability is expressed through index-tagged
copies of the pre-sort list: sorting the tagged list with the same
comparison and projecting the tags away yields the sorted list, and the
tagged sorted list is pairwise ordered by "strictly greater score, or
equal score and smaller original position". -/

/-- The comparison of the final sort lifted to index-tagged results. -/
def enumDesc (a b : Nat × MatchResult) : Prop := compositeDesc a.2 b.2

instance : DecidableRel enumDesc := fun a b => by
  unfold enumDesc; infer_instance

/-- Strict ordering "a comes before b" of the stably sorted output:
either a strictly greater composite score, or an equal score and an
earlier position in the pre-sort list. -/
def tieOrder (a b : Nat × MatchResult) : Prop :=
  b.2.composite_score < a.2.composite_score ∨
    (a.2.composite_score = b.2.composite_score ∧ a.1 < b.1)

/-- The result list of `match` before the final sort: empty under the
no-embedding guard, else one `buildResult` per candidate in
nearest-neighbour order. -/
def preResults (reg : Registry) (job : Job) (topk : List Candidate) : List MatchResult :=
  if hasNoEmbedding job.embedding then []
  else topk.map (buildResult reg job.required_skills.toFinset job.description_cleaned)

instance : IsTotal MatchResult compositeDesc :=
  ⟨fun a b => le_total b.composite_score a.composite_score⟩

instance : IsTrans MatchResult compositeDesc :=
  ⟨fun _ _ _ hab hbc => le_trans hbc hab⟩

theorem orderedInsert_map_snd (p : Nat × MatchResult) (ps : List (Nat × MatchResult)) :
    (List.orderedInsert enumDesc p ps).map Prod.snd =
      List.orderedInsert compositeDesc p.2 (ps.map Prod.snd) := by
  induction ps with
  | nil => rfl
  | cons q qs ih =>
    by_cases h : enumDesc p q
    · have h2 : compositeDesc p.2 q.2 := h
      rw [List.orderedInsert, if_pos h, List.map_cons, List.map_cons,
        List.orderedInsert, if_pos h2]
    · have h2 : ¬compositeDesc p.2 q.2 := h
      rw [List.orderedInsert, if_neg h, List.map_cons, ih, List.map_cons,
        List.orderedInsert, if_neg h2]

theorem insertionSort_map_snd (ps : List (Nat × MatchResult)) :
    (List.insertionSort enumDesc ps).map Prod.snd =
      List.insertionSort compositeDesc (ps.map Prod.snd) := by
  induction ps with
  | nil => rfl
  | cons p ps ih =>
    rw [List.insertionSort, orderedInsert_map_snd, ih, List.map_cons, List.insertionSort]

theorem pairwise_tieOrder_orderedInsert (p : Nat × MatchResult)
    (l : List (Nat × MatchResult)) (hl : l.Pairwise tieOrder)
    (hidx : ∀ y ∈ l, p.1 < y.1) :
    (List.orderedInsert enumDesc p l).Pairwise tieOrder := by
  induction l with
  | nil => simp
  | cons q qs ih =>
    rcases List.pairwise_cons.mp hl with ⟨hq, hqs⟩
    by_cases h : enumDesc p q
    · rw [List.orderedInsert, if_pos h]
      refine List.pairwise_cons.mpr ⟨?_, hl⟩
      intro z hz
      have hzscore : z.2.composite_score ≤ q.2.composite_score := by
        rcases List.mem_cons.mp hz with rfl | hz'
        · exact le_refl _
        · rcases hq z hz' with hlt | ⟨heq, -⟩
          · exact le_of_lt hlt
          · exact le_of_eq heq.symm
      have hpq : q.2.composite_score ≤ p.2.composite_score := h
      rcases lt_or_eq_of_le (le_trans hzscore hpq) with hlt | heq
      · exact Or.inl hlt
      · exact Or.inr ⟨heq.symm, hidx z hz⟩
    · rw [List.orderedInsert, if_neg h]
      refine List.pairwise_cons.mpr
        ⟨?_, ih hqs (fun y hy => hidx y (List.mem_cons_of_mem q hy))⟩
      intro z hz
      rcases (List.mem_orderedInsert _).mp hz with rfl | hz'
      · exact Or.inl (lt_of_not_le (fun hle => h hle))
      · exact hq z hz'

theorem pairwise_tieOrder_insertionSort (ps : List (Nat × MatchResult))
    (h : ps.Pairwise (fun a b => a.1 < b.1)) :
    (List.insertionSort enumDesc ps).Pairwise tieOrder := by
  induction ps with
  | nil => simp
  | cons p ps ih =>
    rcases List.pairwise_cons.mp h with ⟨hp, hps⟩
    rw [List.insertionSort]
    refine pairwise_tieOrder_orderedInsert p _ (ih hps) ?_
    intro y hy
    exact hp y ((List.perm_insertionSort enumDesc ps).mem_iff.mp hy)

theorem le_fst_of_mem_enumFrom' {α : Type} :
    ∀ (l : List α) (m : Nat) (y : Nat × α), y ∈ List.enumFrom m l → m ≤ y.1 := by
  intro l
  induction l with
  | nil => intro m y h; simp at h
  | cons x xs ih =>
    intro m y h
    rw [List.enumFrom_cons] at h
    rcases List.mem_cons.mp h with rfl | h'
    · exact le_refl m
    · exact le_trans (Nat.le_succ m) (ih (m + 1) y h')

theorem pairwise_fst_lt_enumFrom {α : Type} (l : List α) :
    ∀ n, (List.enumFrom n l).Pairwise (fun a b => a.1 < b.1) := by
  induction l with
  | nil => intro n; simp
  | cons x xs ih =>
    intro n
    rw [List.enumFrom_cons]
    refine List.pairwise_cons.mpr ⟨?_, ih (n + 1)⟩
    intro y hy
    exact Nat.lt_of_lt_of_le (Nat.lt_succ_self n) (le_fst_of_mem_enumFrom' xs (n + 1) y hy)

theorem pairwise_fst_lt_enum (l : List MatchResult) :
    l.enum.Pairwise (fun a b => a.1 < b.1) :=
  pairwise_fst_lt_enumFrom l 0

/-- C4: the final result list of `match` is the composite-score-descending
stable sort of the per-candidate results (ties keep the original
nearest-neighbour order, witnessed by the index-tagged sort being
`tieOrder`-sorted), truncated to at most `max 1 k` entries. -/
theorem C4_sort_truncate (reg : Registry) (job_id : String) (job : Job)
    (topk : List Candidate) (k : ℤ) :
    (matchEndpoint reg job_id job topk k).results.length ≤ (max 1 k).toNat ∧
    (matchEndpoint reg job_id job topk k).results.Pairwise
      (fun a b => b.composite_score ≤ a.composite_score) ∧
    (matchEndpoint reg job_id job topk k).results =
      ((List.insertionSort enumDesc (preResults reg job topk).enum).map Prod.snd).take
        (max 1 k).toNat ∧
    (List.insertionSort enumDesc (preResults reg job topk).enum).Perm
      (preResults reg job topk).enum ∧
    (List.insertionSort enumDesc (preResults reg job topk).enum).Pairwise tieOrder := by
  have hsnd :
      (List.insertionSort enumDesc (preResults reg job topk).enum).map Prod.snd =
        List.insertionSort compositeDesc (preResults reg job topk) := by
    rw [insertionSort_map_snd, List.enum_map_snd]
  refine ⟨?_, ?_, ?_, List.perm_insertionSort _ _,
    pairwise_tieOrder_insertionSort _ (pairwise_fst_lt_enum _)⟩
  · unfold matchEndpoint
    split
    · simp
    · exact List.length_take_le _ _
  · unfold matchEndpoint
    split
    · simp
    · exact List.Pairwise.sublist (List.take_sublist _ _) (List.sorted_insertionSort compositeDesc _)
  · rw [hsnd]
    unfold matchEndpoint preResults
    split
    · simp
    · rfl

end AIResumeParser
